import Mathlib

/-!
Shallow embedding of `ya.resourcepool` (file `src/ya/resourcepool.py`),
a thread-safe resource pool built around `weakref.finalize` handles,
a `collections.deque` store, a blocking waiter with deadline arithmetic,
a capacity-trimming background thread (`__gc`) and per-handle age
eviction (`__drop`).

Modelling conventions:
* A `weakref.finalize` object is embedded as `Finalizer`: an `id`
  (object identity), the wrapped `resource` (the single element of
  `args`) and an `alive` flag.  `Finalizer.detach` models
  `wrapper.detach()` (returns the callback data and disarms if alive,
  returns `None` otherwise); `Finalizer.callFin` models `wrapper()`
  (invokes the deallocator exactly when alive, then disarms).
* The deque `self.__pool` is a `List` whose HEAD is the deque's RIGHT
  end: `deque.append` is `cons`, `deque.pop` takes the head,
  `deque.popleft` takes the last element, `deque.extendleft it` on the
  representation appends `it` at the tail.
* Time is `Int` (`time.monotonic` values); `Optional[float]` timeouts
  are `Option Int`.
* Exceptions are explicit result constructors; invocations of the
  user-supplied `dealloc` callback are recorded in `deallocLog`.
* The blocking waiter consumes a list of wake events `(t, w)`:
  at monotonic time `t` the condition variable wakes with the store
  non-empty and `self.__pool.pop()` yields the handle `w`.
-/

set_option autoImplicit false

universe u

variable {R : Type u}

/-- Embedding of a `weakref.finalize(self.__pool, self.__dealloc, resource)`
object: `id` is the Python object identity, `resource` the wrapped resource,
`alive` whether the finalizer is still armed. -/
structure Finalizer (R : Type u) where
  id : Nat
  resource : R
  alive : Bool
deriving DecidableEq, Repr

namespace Finalizer

/-- `wrapper.detach()`: if alive, disarm and return the
`(obj, func, args, kwargs)` data — of which the pool uses `args[0]`,
the resource; if already dead, return `None` (modelled as `none`). -/
def detach (w : Finalizer R) : Option R × Finalizer R :=
  if w.alive then (some w.resource, { w with alive := false }) else (none, w)

/-- `wrapper()`: if alive, disarm and invoke the deallocator on the wrapped
resource (the returned `some r` records that `dealloc r` was called);
if already dead, do nothing. -/
def callFin (w : Finalizer R) : Option R × Finalizer R :=
  if w.alive then (some w.resource, { w with alive := false }) else (none, w)

end Finalizer

/-- One attempt on a handle: a detach (`wrapper.detach()`, used by `pop` and
the blocking waiter) or a destroy (`wrapper()`, used by `__gc` and `__drop`). -/
inductive FinOp where
  | detach
  | destroy
deriving DecidableEq, Repr

/-- Run one attempt on a handle; `some r` means the attempt won the resource. -/
def runOp (op : FinOp) (w : Finalizer R) : Option R × Finalizer R :=
  match op with
  | .detach => w.detach
  | .destroy => w.callFin

/-- Run a serialized sequence of attempts on one handle, collecting each
attempt's outcome. -/
def runOps : List FinOp → Finalizer R → List (Option R) × Finalizer R
  | [], w => ([], w)
  | op :: ops, w =>
    let (res, w') := runOp op w
    let (ress, w'') := runOps ops w'
    (res :: ress, w'')

/-- Result of `ResourcePool.pop`: a resource, a raised `ResourcePoolEmpty`,
or (timeout ≤ 0 with no further wake event) still blocked in `wait_for`. -/
inductive PopResult (R : Type u) where
  | ok (r : R)
  | empty
  | blocked
deriving DecidableEq, Repr

/-- Result of `ResourcePool.__wait_blocking`: success carries the monotonic
time at which the successful detach happened. -/
inductive WaitResult (R : Type u) where
  | ok (time : Int) (r : R)
  | empty
  | pending
deriving DecidableEq, Repr

/-- State and configuration of a `ResourcePool` object.  The allocator is
modelled as the sequence of values an external `alloc()` callback would
produce (`allocSeq k` is the result of its `k`-th call, counted by
`allocCount`); `check` is `self.__check` (defaulted to `true`);
`deallocLog` records every invocation `dealloc r` in order;
`pendingDrops` records the `threading.Timer(..., self.__drop, (wrapper,))`
tasks scheduled by `push`; `nextId` supplies fresh object identities. -/
structure Pool (R : Type u) where
  store : List (Finalizer R)
  alloc : Option (Nat → R)
  allocCount : Nat
  check : R → Bool
  deallocLog : List R
  pendingDrops : List (Finalizer R)
  minsize : Option Nat
  maxsize : Option Nat
  maxage : Option Int
  nextId : Nat

namespace ResourcePool

/-- `ResourcePool.__detach` without the (suppressed) `DeadResource`
distinction: `wrapper.detach()`, then on success the liveness check;
`none` is a raised `DeadResource` (either the unpack `TypeError` of a dead
handle or a failed check — note the handle is already disarmed in the
latter case, so no deallocation happens). -/
def detachChecked (check : R → Bool) (w : Finalizer R) : Option R :=
  match w.detach with
  | (some r, _) => if check r then some r else none
  | (none, _) => none

/-- The `while True` loop of `ResourcePool.pop` over a non-empty store:
`self.__pool.pop()` a handle, try `self.__detach`, on `DeadResource`
retry; stops with `none` when the store raises `IndexError`. -/
def popAvail (check : R → Bool) : List (Finalizer R) → Option R × List (Finalizer R)
  | [] => (none, [])
  | w :: rest =>
    match detachChecked check w with
    | some r => (some r, rest)
    | none => popAvail check rest

/-- The loop of `ResourcePool.__wait_blocking` (lines 123–134): at each wake
event `(t, w)` first recompute `timeout = timeoutend - now()` (a no-op under
`suppress(TypeError)` when `timeoutend` is `None`), fail with
`ResourcePoolEmpty` when `wait_for` would time out before the wake, else
pop `w` and try `self.__detach`, retrying on `DeadResource`. -/
def waitLoop (check : R → Bool) (timeoutend : Option Int) :
    Int → List (Int × Finalizer R) → WaitResult R
  | _, [] =>
    match timeoutend with
    | some _ => .empty
    | none => .pending
  | cur, (t, w) :: rest =>
    let timeout : Option Int := timeoutend.map (· - cur)
    match timeout with
    | some tm =>
      if tm < t - cur then .empty
      else
        match detachChecked check w with
        | some r => .ok t r
        | none => waitLoop check timeoutend t rest
    | none =>
      match detachChecked check w with
      | some r => .ok t r
      | none => waitLoop check timeoutend t rest

/-- `ResourcePool.__wait_blocking` (lines 111–134): `timeout is None` raises
`ResourcePoolEmpty` at once; `timeout <= 0` waits with no deadline;
otherwise the absolute deadline `timeoutend = now() + timeout` is fixed at
entry and every retry waits only for the remaining time. -/
def wait_blocking (check : R → Bool) (t0 : Int) (timeout : Option Int)
    (events : List (Int × Finalizer R)) : WaitResult R :=
  match timeout with
  | none => .empty
  | some tm =>
    if tm ≤ 0 then waitLoop check none t0 events
    else waitLoop check (some (t0 + tm)) t0 events

/-- `ResourcePool.pop` (lines 71–86): drain handles from the LIFO end until
one detaches live; on `IndexError` fall through to `self.__alloc(timeout)`,
which is `lambda _: alloc()` when an allocator is configured and
`self.__wait_blocking` otherwise. -/
def pop (p : Pool R) (timeout : Option Int) (t0 : Int)
    (events : List (Int × Finalizer R)) : PopResult R × Pool R :=
  match popAvail p.check p.store with
  | (some r, store') => (.ok r, { p with store := store' })
  | (none, store') =>
    match p.alloc with
    | some a => (.ok (a p.allocCount),
                 { p with store := store', allocCount := p.allocCount + 1 })
    | none =>
      match wait_blocking p.check t0 timeout events with
      | .ok _ r => (.ok r, { p with store := store' })
      | .empty => (.empty, { p with store := store' })
      | .pending => (.blocked, { p with store := store' })

/-- `ResourcePool.push` (lines 88–96): wrap the resource in a fresh finalize
handle, append it at the LIFO end, and when `maxage` is configured schedule
a `threading.Timer(maxage, self.__drop, (wrapper,))` for it. -/
def push (p : Pool R) (r : R) : Pool R :=
  let w : Finalizer R := ⟨p.nextId, r, true⟩
  { p with
    store := w :: p.store
    pendingDrops := if p.maxage.isSome then p.pendingDrops ++ [w] else p.pendingDrops
    nextId := p.nextId + 1 }

/-- The `while len(init) < minsize: init.append(alloc())` loop of
`ResourcePool.__init__` (lines 56–57); `cnt` counts allocator calls. -/
def fillInit (a : Nat → R) (m : Nat) (init : List R) (cnt : Nat) : List R × Nat :=
  if init.length < m then fillInit a m (init ++ [a cnt]) (cnt + 1)
  else (init, cnt)
termination_by m - init.length
decreasing_by simp only [List.length_append, List.length_cons, List.length_nil]; omega

/-- The generator `finalize(self.__pool, self.__dealloc, resource) for
resource in init` (lines 58–60): fresh handles, identities assigned in
iteration order starting at `i`. -/
def wrapAll (i : Nat) : List R → List (Finalizer R)
  | [] => []
  | r :: rs => ⟨i, r, true⟩ :: wrapAll (i + 1) rs

/-- `ResourcePool.__init__` (lines 32–69).  Returns the constructed pool
together with the caller's `init` object as it stands after construction:
a falsy `init` (absent or empty) is rebound to a fresh list by
`if not init: init = []`, so the caller's object is untouched; a truthy
(non-empty) list is the very object the `init.append(alloc())` calls
mutate in place. -/
def mkPool (alloc : Option (Nat → R)) (check : Option (R → Bool))
    (init : Option (List R)) (minsize maxsize : Option Nat) (maxage : Option Int) :
    Pool R × List R :=
  let init0 : List R := match init with
    | none => []
    | some l => l
  -- `if alloc and minsize:` — `None` and `0` are both falsy
  let filled : List R × Nat := match alloc, minsize with
    | some a, some m => if m ≠ 0 then fillInit a m init0 0 else (init0, 0)
    | _, _ => (init0, 0)
  let init1 := filled.1
  -- `self.__pool.extendleft(...)` on the fresh empty deque lays `init1`
  -- out with its first element at the deque's right (LIFO pop) end
  let store := ResourcePool.wrapAll 0 init1
  -- `if minsize is None: minsize = maxsize`
  let min' : Option Nat := match minsize with
    | none => maxsize
    | some m => some m
  ({ store := store
     alloc := alloc
     allocCount := filled.2
     check := check.getD (fun _ => true)
     deallocLog := []
     pendingDrops := []
     minsize := min'
     maxsize := maxsize
     maxage := maxage
     nextId := init1.length },
   match init with
   | none => []
   | some l => if l.isEmpty then l else init1)

/-- The inner `while len(self.__pool) > self.__min` loop of
`ResourcePool.__gc` (lines 143–145): `popleft` the handle at the deque's
left ("oldest") end and destroy it with `wrapper()`, which invokes the
deallocator exactly when the handle is still alive. -/
def gcTrim (minv : Nat) (store : List (Finalizer R)) (log : List R) :
    List (Finalizer R) × List R :=
  if minv < store.length then
    match store.getLast? with
    | some w =>
      gcTrim minv store.dropLast
        (match w.callFin with
         | (some r, _) => log ++ [r]
         | (none, _) => log)
    | none => (store, log)
  else (store, log)
termination_by store.length
decreasing_by simp_all [List.length_dropLast]; omega

/-- One iteration of the `ResourcePool.__gc` outer loop after
`wait_for(_max_size_exceeded)` returned (lines 140–145).  The thread only
exists when `maxsize` is configured, in which case `__init__` has made
`self.__min` non-`None`; the `none` branch is therefore unreachable on a
constructed pool. -/
def gcPass (p : Pool R) : Pool R :=
  match p.minsize with
  | some m =>
    let trimmed := gcTrim m p.store p.deallocLog
    { p with store := trimmed.1, deallocLog := trimmed.2 }
  | none => p

/-- `deque.remove(wrapper)` (line 164): remove the first occurrence
scanning from the deque's LEFT end — the tail of our representation —
returning `none` where CPython raises `ValueError`. -/
def dequeRemove [DecidableEq R] (w : Finalizer R) (store : List (Finalizer R)) :
    Option (List (Finalizer R)) :=
  match go store.reverse with
  | some l => some l.reverse
  | none => none
where
  go : List (Finalizer R) → Option (List (Finalizer R))
    | [] => none
    | x :: xs => if x = w then some xs else (go xs).map (x :: ·)

/-- `ResourcePool.__drop` (lines 160–165), the age-evictor body scheduled
by `push`: under the mutex, proceed only when `self.__min is None or
len(self) > self.__min`; then `self.__pool.remove(wrapper)` — a
`ValueError` (handle no longer pooled) is suppressed, skipping the
destroy — and on successful removal destroy the handle with `wrapper()`. -/
def drop [DecidableEq R] (p : Pool R) (w : Finalizer R) : Pool R :=
  let proceed : Bool := match p.minsize with
    | none => true
    | some m => decide (m < p.store.length)
  if proceed then
    match dequeRemove w p.store with
    | some store' =>
      match w.callFin with
      | (some r, _) => { p with store := store', deallocLog := p.deallocLog ++ [r] }
      | (none, _) => { p with store := store' }
    | none => p
  else p

end ResourcePool

/-- `n` successive `pop()` calls with the timeout argument omitted,
collecting each call's outcome. -/
def popN (t0 : Int) : Nat → Pool R → List (PopResult R) × Pool R
  | 0, p => ([], p)
  | n + 1, p =>
    let step := ResourcePool.pop p none t0 []
    let rest := popN t0 n step.2
    (step.1 :: rest.1, rest.2)

/-- A sequence of `push` calls, first element pushed first. -/
def pushAll (p : Pool R) (rs : List R) : Pool R :=
  rs.foldl ResourcePool.push p

/-! ### Basic lemmas about handles -/

theorem runOp_resource (op : FinOp) (w : Finalizer R) :
    (runOp op w).2.resource = w.resource := by
  cases op <;> simp only [runOp, Finalizer.detach, Finalizer.callFin] <;>
    split <;> rfl

theorem runOp_dead (op : FinOp) (w : Finalizer R) (h : w.alive = false) :
    runOp op w = (none, w) := by
  cases op <;> simp [runOp, Finalizer.detach, Finalizer.callFin, h]

theorem runOps_dead (ops : List FinOp) (w : Finalizer R) (h : w.alive = false) :
    runOps ops w = (List.replicate ops.length none, w) := by
  induction ops with
  | nil => rfl
  | cons op ops ih => simp [runOps, runOp_dead op w h, ih, List.replicate]

theorem runOp_alive (op : FinOp) (w : Finalizer R) (h : w.alive = true) :
    runOp op w = (some w.resource, { w with alive := false }) := by
  cases op <;> simp [runOp, Finalizer.detach, Finalizer.callFin, h]

theorem countP_isSome_replicate_none {n : Nat} :
    (List.replicate n (none : Option R)).countP Option.isSome = 0 := by
  induction n with
  | zero => rfl
  | succ n ih => simp [List.replicate, List.countP_cons, ih]

/-! ### Lemmas about `pop`, `push` and the store order -/

theorem detachChecked_live (check : R → Bool) (w : Finalizer R)
    (halive : w.alive = true) (hc : check w.resource = true) :
    ResourcePool.detachChecked check w = some w.resource := by
  simp [ResourcePool.detachChecked, Finalizer.detach, halive, hc]

theorem pop_cons_live (p : Pool R) (w : Finalizer R) (rest : List (Finalizer R))
    (hs : p.store = w :: rest) (halive : w.alive = true)
    (hc : p.check w.resource = true) (t : Option Int) (t0 : Int)
    (ev : List (Int × Finalizer R)) :
    ResourcePool.pop p t t0 ev = (PopResult.ok w.resource, { p with store := rest }) := by
  simp [ResourcePool.pop, hs, ResourcePool.popAvail, detachChecked_live p.check w halive hc]

theorem popN_all_live (t0 : Int) (ws : List (Finalizer R)) :
    ∀ p : Pool R, p.store = ws → (∀ w ∈ ws, w.alive = true) →
      (∀ w ∈ ws, p.check w.resource = true) →
      (popN t0 ws.length p).1 = ws.map (fun w => PopResult.ok w.resource) := by
  induction ws with
  | nil => intro p _ _ _; simp [popN]
  | cons w rest ih =>
    intro p hs halive hc
    have hstep := pop_cons_live p w rest hs (halive w (by simp))
      (hc w (by simp)) none t0 []
    have hrest := ih { p with store := rest } rfl
      (fun x hx => halive x (by simp [hx]))
      (fun x hx => hc x (by simp [hx]))
    simp [popN, hstep, hrest]

theorem pushAll_cons (p : Pool R) (r : R) (rs : List R) :
    pushAll p (r :: rs) = pushAll (ResourcePool.push p r) rs := rfl

theorem pushAll_store_map (rs : List R) :
    ∀ p : Pool R, (pushAll p rs).store.map Finalizer.resource
      = rs.reverse ++ p.store.map Finalizer.resource := by
  induction rs with
  | nil => intro p; simp [pushAll]
  | cons r rs ih =>
    intro p
    rw [pushAll_cons, ih]
    simp [ResourcePool.push]

theorem pushAll_store_alive (rs : List R) :
    ∀ p : Pool R, (∀ w ∈ p.store, w.alive = true) →
      ∀ w ∈ (pushAll p rs).store, w.alive = true := by
  induction rs with
  | nil => intro p hp; exact hp
  | cons r rs ih =>
    intro p hp
    refine ih (ResourcePool.push p r) ?_
    intro w hw
    rcases (by simpa [ResourcePool.push] using hw : w = ⟨p.nextId, r, true⟩ ∨ w ∈ p.store) with
      h | h
    · simp [h]
    · exact hp w h

theorem pushAll_check (rs : List R) :
    ∀ p : Pool R, (pushAll p rs).check = p.check := by
  induction rs with
  | nil => intro p; rfl
  | cons r rs ih => intro p; rw [pushAll_cons, ih]; rfl

theorem ResourcePool.wrapAll_map_resource (rs : List R) :
    ∀ i : Nat, (ResourcePool.wrapAll i rs).map Finalizer.resource = rs := by
  induction rs with
  | nil => intro i; rfl
  | cons r rs ih => intro i; simp [ResourcePool.wrapAll, ih]

theorem ResourcePool.wrapAll_alive (rs : List R) :
    ∀ (i : Nat), ∀ w ∈ ResourcePool.wrapAll i rs, w.alive = true := by
  induction rs with
  | nil => intro i w hw; simp [ResourcePool.wrapAll] at hw
  | cons r rs ih =>
    intro i w hw
    rcases (by simpa [ResourcePool.wrapAll] using hw : w = ⟨i, r, true⟩ ∨ w ∈ ResourcePool.wrapAll (i + 1) rs) with
      h | h
    · simp [h]
    · exact ih (i + 1) w h

/-- C3: on a pool with no allocator, no capacity limits and no max-age,
pushing `N` distinct resources and popping `N` times returns exactly the
pushed resources, each exactly once, in LIFO order: the results are
`rs.reverse`, every pop succeeds, and each pushed resource appears once. -/
theorem push_pop_lifo [DecidableEq R] (rs : List R) (hnd : rs.Nodup) :
    (popN 0 rs.length
        (pushAll (ResourcePool.mkPool (R := R) none none none none none none).1 rs)).1
      = rs.reverse.map PopResult.ok ∧
    ∀ r ∈ rs,
      ((popN 0 rs.length
          (pushAll (ResourcePool.mkPool (R := R) none none none none none none).1 rs)).1).count
        (PopResult.ok r) = 1 := by
  have hp0store : (ResourcePool.mkPool (R := R) none none none none none none).1.store = [] :=
    rfl
  have hp0check :
      (ResourcePool.mkPool (R := R) none none none none none none).1.check = fun _ => true :=
    rfl
  have hmap := pushAll_store_map rs (ResourcePool.mkPool (R := R) none none none none none none).1
  rw [hp0store] at hmap
  simp only [List.map_nil, List.append_nil] at hmap
  have hlen : (pushAll (ResourcePool.mkPool (R := R) none none none none none none).1 rs).store.length
      = rs.length := by
    have := congrArg List.length hmap
    simpa using this
  have halive := pushAll_store_alive rs
    (ResourcePool.mkPool (R := R) none none none none none none).1
    (by rw [hp0store]; intro w hw; simp at hw)
  have hcheck := pushAll_check rs (ResourcePool.mkPool (R := R) none none none none none none).1
  have hmain := popN_all_live 0
    (pushAll (ResourcePool.mkPool (R := R) none none none none none none).1 rs).store
    (pushAll (ResourcePool.mkPool (R := R) none none none none none none).1 rs)
    rfl halive (by intro w hw; rw [hcheck, hp0check])
  rw [hlen] at hmain
  have hres : (popN 0 rs.length
      (pushAll (ResourcePool.mkPool (R := R) none none none none none none).1 rs)).1
      = rs.reverse.map PopResult.ok := by
    rw [hmain, ← hmap, List.map_map]
    rfl
  refine ⟨hres, fun r hr => ?_⟩
  rw [hres, List.count_map_of_injective rs.reverse PopResult.ok
    (fun a b h => by injection h) r, List.count_reverse]
  exact List.count_eq_one_of_mem hnd hr

/-- C9: a pool built from `init = [r1, …, rn]` with the default (always-true)
liveness check hands back `r1, r2, …, rn` in exactly the listed order over
`n` successive pops: `extendleft` reverses the iterable, so the first listed
resource sits at the LIFO pop end. -/
theorem pop_init_extendleft_order (rs : List R) :
    (popN 0 rs.length (ResourcePool.mkPool (R := R) none none (some rs) none none none).1).1
      = rs.map PopResult.ok := by
  have hstore : (ResourcePool.mkPool (R := R) none none (some rs) none none none).1.store
      = ResourcePool.wrapAll 0 rs := rfl
  have hcheck :
      (ResourcePool.mkPool (R := R) none none (some rs) none none none).1.check
        = fun _ => true := rfl
  have hlen : (ResourcePool.wrapAll 0 rs).length = rs.length := by
    have := congrArg List.length (ResourcePool.wrapAll_map_resource rs 0)
    simpa using this
  have hmain := popN_all_live 0 (ResourcePool.wrapAll 0 rs)
    (ResourcePool.mkPool (R := R) none none (some rs) none none none).1
    hstore (ResourcePool.wrapAll_alive rs 0)
    (by intro w hw; rw [hcheck])
  rw [hlen] at hmain
  rw [hmain]
  have hsplit : List.map (fun w => PopResult.ok w.resource) (ResourcePool.wrapAll 0 rs)
      = List.map PopResult.ok (List.map Finalizer.resource (ResourcePool.wrapAll 0 rs)) := by
    rw [List.map_map]; rfl
  rw [hsplit, ResourcePool.wrapAll_map_resource]

/-- C3 witness at `rs = [0, 1, 2]`. -/
theorem push_pop_lifo_witness :
    (popN 0 3 (pushAll (ResourcePool.mkPool (R := ℕ) none none none none none none).1
        [0, 1, 2])).1
      = [PopResult.ok 2, PopResult.ok 1, PopResult.ok 0] := by
  simpa using (push_pop_lifo [0, 1, 2] (by decide)).1

/-- C4: with an allocator configured, pop on an empty store returns the
allocator's next result unconditionally, for every timeout value, never
raising `ResourcePoolEmpty`; only the allocation counter advances. -/
theorem pop_alloc_unconditional (p : Pool R) (a : Nat → R) (ha : p.alloc = some a)
    (hs : p.store = []) (t : Option Int) (t0 : Int) (ev : List (Int × Finalizer R)) :
    (ResourcePool.pop p t t0 ev).1 = PopResult.ok (a p.allocCount) ∧
    (ResourcePool.pop p t t0 ev).1 ≠ PopResult.empty ∧
    (ResourcePool.pop p t t0 ev).2.allocCount = p.allocCount + 1 := by
  simp [ResourcePool.pop, hs, ResourcePool.popAvail, ha]

/-- C4 witness on a freshly constructed allocator pool, with a timeout. -/
theorem pop_alloc_unconditional_witness :
    (ResourcePool.pop
        (ResourcePool.mkPool (R := ℕ) (some (fun k => k + 10)) none none none none none).1
        (some 5) 0 []).1
      = PopResult.ok 10 :=
  (pop_alloc_unconditional _ (fun k => k + 10) rfl rfl (some 5) 0 []).1

theorem waitLoop_nodeadline_ne_empty (check : R → Bool) (cur : Int)
    (evs : List (Int × Finalizer R)) :
    ResourcePool.waitLoop check none cur evs ≠ WaitResult.empty := by
  induction evs generalizing cur with
  | nil => simp [ResourcePool.waitLoop]
  | cons e rest ih =>
    obtain ⟨t, w⟩ := e
    cases h : ResourcePool.detachChecked check w with
    | some r => simp [ResourcePool.waitLoop, h]
    | none => simpa [ResourcePool.waitLoop, h] using ih t

theorem waitLoop_nodeadline_pending (check : R → Bool) (cur : Int)
    (evs : List (Int × Finalizer R))
    (hall : ∀ e ∈ evs, ResourcePool.detachChecked check e.2 = none) :
    ResourcePool.waitLoop check none cur evs = WaitResult.pending := by
  induction evs generalizing cur with
  | nil => simp [ResourcePool.waitLoop]
  | cons e rest ih =>
    obtain ⟨t, w⟩ := e
    have hw : ResourcePool.detachChecked check w = none := hall (t, w) (by simp)
    simpa [ResourcePool.waitLoop, hw] using ih t (fun e he => hall e (by simp [he]))

/-- C6: on an allocator-less pool with empty store, pop with the timeout
omitted fails immediately with `ResourcePoolEmpty` leaving the pool
unchanged; pop with `timeout ≤ 0` never raises `ResourcePoolEmpty`, and as
long as no wake event yields a live resource it is still blocked in
`wait_for` (it blocks until an insertion is observed). -/
theorem pop_empty_no_allocator (p : Pool R) (hna : p.alloc = none) (hs : p.store = [])
    (t0 : Int) (events : List (Int × Finalizer R)) :
    ResourcePool.pop p none t0 events = (PopResult.empty, p) ∧
    (∀ tm : Int, tm ≤ 0 → ∀ evs : List (Int × Finalizer R),
      (ResourcePool.pop p (some tm) t0 evs).1 ≠ PopResult.empty ∧
      ((∀ e ∈ evs, ResourcePool.detachChecked p.check e.2 = none) →
        (ResourcePool.pop p (some tm) t0 evs).1 = PopResult.blocked)) ∧
    (∀ tm : Int, tm ≤ 0 → ∀ (t1 : Int) (w : Finalizer R), w.alive = true →
      p.check w.resource = true → ∀ evs' : List (Int × Finalizer R),
      (ResourcePool.pop p (some tm) t0 ((t1, w) :: evs')).1
        = PopResult.ok w.resource) := by
  have hrec : ({ p with store := ([] : List (Finalizer R)) } : Pool R) = p := by
    cases p
    simp_all
  refine ⟨?_, ?_, ?_⟩
  · have h1 : ResourcePool.pop p none t0 events
        = (PopResult.empty, { p with store := ([] : List (Finalizer R)) }) := by
      simp [ResourcePool.pop, hs, ResourcePool.popAvail, hna, ResourcePool.wait_blocking]
    rw [h1, hrec]
  · intro tm htm evs
    have hnot : tm ≤ 0 := htm
    constructor
    · cases hwl : ResourcePool.waitLoop p.check none t0 evs with
      | ok t r =>
        simp [ResourcePool.pop, hs, ResourcePool.popAvail, hna, ResourcePool.wait_blocking,
          hnot, hwl]
      | empty => exact absurd hwl (waitLoop_nodeadline_ne_empty p.check t0 evs)
      | pending =>
        simp [ResourcePool.pop, hs, ResourcePool.popAvail, hna, ResourcePool.wait_blocking,
          hnot, hwl]
    · intro hall
      have hwl := waitLoop_nodeadline_pending p.check t0 evs hall
      simp [ResourcePool.pop, hs, ResourcePool.popAvail, hna, ResourcePool.wait_blocking,
        hnot, hwl]
  · intro tm htm t1 w halive hc evs'
    have hdet := detachChecked_live p.check w halive hc
    simp [ResourcePool.pop, hs, ResourcePool.popAvail, hna, ResourcePool.wait_blocking,
      htm, ResourcePool.waitLoop, hdet]

/-- C6 witness: the non-blocking probe on a default-constructed pool. -/
theorem pop_empty_no_allocator_witness :
    ResourcePool.pop (ResourcePool.mkPool (R := ℕ) none none none none none none).1 none 0 []
      = (PopResult.empty, (ResourcePool.mkPool (R := ℕ) none none none none none none).1) :=
  (pop_empty_no_allocator _ rfl rfl 0 []).1

theorem waitLoop_deadline_ok_le (check : R → Bool) (d : Int)
    (evs : List (Int × Finalizer R)) :
    ∀ (cur t : Int) (r : R),
      ResourcePool.waitLoop check (some d) cur evs = WaitResult.ok t r → t ≤ d := by
  induction evs with
  | nil => intro cur t r h; simp [ResourcePool.waitLoop] at h
  | cons e rest ih =>
    intro cur t r h
    obtain ⟨t', w⟩ := e
    by_cases hlt : d - cur < t' - cur
    · simp [ResourcePool.waitLoop, hlt] at h
    · cases hd : ResourcePool.detachChecked check w with
      | some r' =>
        simp [ResourcePool.waitLoop, hlt, hd] at h
        omega
      | none =>
        simp [ResourcePool.waitLoop, hlt, hd] at h
        exact ih t' t r h

theorem waitLoop_deadline_empty (check : R → Bool) (d : Int)
    (evs : List (Int × Finalizer R)) :
    ∀ cur : Int,
      (∀ e ∈ evs, d < e.1 ∨ ResourcePool.detachChecked check e.2 = none) →
      ResourcePool.waitLoop check (some d) cur evs = WaitResult.empty := by
  induction evs with
  | nil => intro cur _; simp [ResourcePool.waitLoop]
  | cons e rest ih =>
    intro cur hall
    obtain ⟨t', w⟩ := e
    rcases hall (t', w) (by simp) with hlate | hdead
    · have hlt : d - cur < t' - cur := by omega
      simp [ResourcePool.waitLoop, hlt]
    · by_cases hlt : d - cur < t' - cur
      · simp [ResourcePool.waitLoop, hlt]
      · simpa [ResourcePool.waitLoop, hlt, hdead] using
          ih t' (fun e he => hall e (by simp [he]))

/-- C5: for `timeout > 0` the blocking waiter fixes the absolute deadline
`t0 + timeout` at entry; every retry after a lost detach race or failed
liveness check waits only until that same deadline, so a success at wake
time `t` always satisfies `t - t0 ≤ timeout`, and if no wake before the
deadline yields a live resource the call fails with `ResourcePoolEmpty`. -/
theorem wait_blocking_deadline (check : R → Bool) (t0 tm : Int) (htm : 0 < tm)
    (events : List (Int × Finalizer R)) :
    (∀ (t : Int) (r : R),
      ResourcePool.wait_blocking check t0 (some tm) events = WaitResult.ok t r →
        t - t0 ≤ tm) ∧
    ((∀ e ∈ events, t0 + tm < e.1 ∨ ResourcePool.detachChecked check e.2 = none) →
      ResourcePool.wait_blocking check t0 (some tm) events = WaitResult.empty) := by
  have hgt : ¬ tm ≤ 0 := by omega
  constructor
  · intro t r h
    simp only [ResourcePool.wait_blocking, if_neg hgt] at h
    have := waitLoop_deadline_ok_le check (t0 + tm) events t0 t r h
    omega
  · intro hall
    simp only [ResourcePool.wait_blocking, if_neg hgt]
    exact waitLoop_deadline_empty check (t0 + tm) events t0 hall

/-- C5 witness: timeout 5 entered at time 0, single wake at time 3. -/
theorem wait_blocking_deadline_witness : (3 : Int) - 0 ≤ 5 :=
  (wait_blocking_deadline (fun _ => true) 0 5 (by norm_num)
    [(3, (⟨0, (42 : ℕ), true⟩ : Finalizer ℕ))]).1 3 42 (by rfl)

/-- A pool holding one live handle whose resource fails the configured
liveness check (`check` constantly false). -/
def deadCheckPool : Pool Nat :=
  { store := [⟨0, 7, true⟩]
    alloc := none
    allocCount := 0
    check := fun _ => false
    deallocLog := []
    pendingDrops := []
    minsize := none
    maxsize := none
    maxage := none
    nextId := 1 }

/-- C2 counterexample: popping from a pool whose only (live) handle wraps
resource `7` with a failing liveness check removes the handle from the
store, but the destroyer is never invoked — the dealloc log stays empty,
with `7` nowhere in it — because `__detach` disarms the finalize wrapper
before running the check; the resource is dropped without deallocation,
contradicting the claim that the destroyer runs via the handle's normal
destroy path. -/
theorem pop_deadcheck_counterexample :
    deadCheckPool.check 7 = false ∧
    (ResourcePool.pop deadCheckPool none 0 []).2.store = [] ∧
    (ResourcePool.pop deadCheckPool none 0 []).2.deallocLog = [] ∧
    (ResourcePool.pop deadCheckPool none 0 []).1 = PopResult.empty :=
  ⟨rfl, rfl, rfl, rfl⟩

theorem pop_preserves_deallocLog (q : Pool R) (t : Option Int) (t0 : Int)
    (ev : List (Int × Finalizer R)) :
    (ResourcePool.pop q t t0 ev).2.deallocLog = q.deallocLog := by
  unfold ResourcePool.pop
  rcases ResourcePool.popAvail q.check q.store with ⟨res, s'⟩
  cases res with
  | some r => rfl
  | none =>
    cases q.alloc with
    | some a => rfl
    | none => cases ResourcePool.wait_blocking q.check t0 t ev <;> rfl

/-- C2 amended: when pop removes a handle whose liveness check fails, the
handle has already been detached, so the destroyer is NOT invoked — pop
leaves the dealloc log untouched on every path — and the loop retries
exactly as if the failed handle had been absent from the store. -/
theorem pop_deadcheck_drops_silently (p : Pool R) (w : Finalizer R)
    (rest : List (Finalizer R)) (hs : p.store = w :: rest)
    (hc : p.check w.resource = false) (t : Option Int) (t0 : Int)
    (ev : List (Int × Finalizer R)) :
    ResourcePool.pop p t t0 ev = ResourcePool.pop { p with store := rest } t t0 ev ∧
    ∀ (q : Pool R) (t' : Option Int) (t0' : Int) (ev' : List (Int × Finalizer R)),
      (ResourcePool.pop q t' t0' ev').2.deallocLog = q.deallocLog := by
  have hdc : ResourcePool.detachChecked p.check w = none := by
    cases halive : w.alive with
    | true => simp [ResourcePool.detachChecked, Finalizer.detach, halive, hc]
    | false => simp [ResourcePool.detachChecked, Finalizer.detach, halive]
  refine ⟨?_, fun q t' t0' ev' => pop_preserves_deallocLog q t' t0' ev'⟩
  simp [ResourcePool.pop, hs, ResourcePool.popAvail, hdc]

/-- C2 amended witness at the concrete failing-check pool. -/
theorem pop_deadcheck_drops_silently_witness :
    (ResourcePool.pop deadCheckPool none 0 []).2.deallocLog = deadCheckPool.deallocLog :=
  (pop_deadcheck_drops_silently deadCheckPool ⟨0, 7, true⟩ [] rfl rfl none 0 []).2
    deadCheckPool none 0 []

/-! ### Lemmas about the capacity trimmer `__gc` -/

theorem reverse_eq_getLast_cons {α : Type u} (l : List α) (h : l ≠ []) :
    l.reverse = l.getLast h :: l.dropLast.reverse := by
  conv_lhs => rw [← List.dropLast_append_getLast h]
  simp

theorem gcTrim_of_le (minv : Nat) (store : List (Finalizer R)) (log : List R)
    (h : store.length ≤ minv) : ResourcePool.gcTrim minv store log = (store, log) := by
  unfold ResourcePool.gcTrim
  simp [Nat.not_lt.mpr h]

theorem gcTrim_spec (minv : Nat) (k : Nat) :
    ∀ store : List (Finalizer R), store.length = minv + k →
      (∀ w ∈ store, w.alive = true) → ∀ log : List R,
      ResourcePool.gcTrim minv store log
        = (store.take minv, log ++ (store.drop minv).reverse.map Finalizer.resource) := by
  induction k with
  | zero =>
    intro store hlen halive log
    rw [gcTrim_of_le minv store log (by omega)]
    rw [List.take_of_length_le (by omega), List.drop_eq_nil_of_le (by omega)]
    simp
  | succ k ih =>
    intro store hlen halive log
    have hne : store ≠ [] := by
      intro hnil
      rw [hnil] at hlen
      simp at hlen
      omega
    have hlt : minv < store.length := by omega
    have hlast : store.getLast? = some (store.getLast hne) :=
      List.getLast?_eq_getLast_of_ne_nil hne
    have halivew : (store.getLast hne).alive = true :=
      halive _ (List.getLast_mem hne)
    have hcall : (store.getLast hne).callFin
        = (some (store.getLast hne).resource, { store.getLast hne with alive := false }) := by
      simp [Finalizer.callFin, halivew]
    have hlen' : store.dropLast.length = minv + k := by
      rw [List.length_dropLast]
      omega
    have halive' : ∀ w ∈ store.dropLast, w.alive = true := fun w hw =>
      halive w ((List.dropLast_sublist store).subset hw)
    have hstep : ResourcePool.gcTrim minv store log
        = ResourcePool.gcTrim minv store.dropLast
            (log ++ [(store.getLast hne).resource]) := by
      rw [ResourcePool.gcTrim, if_pos hlt, hlast]
      simp only [hcall]
    rw [hstep, ih store.dropLast hlen' halive' (log ++ [(store.getLast hne).resource])]
    have h1 : store.dropLast.take minv = store.take minv := by
      rw [List.dropLast_eq_take, List.take_take, min_eq_left (by omega)]
    have hdd : store.dropLast.drop minv = (store.drop minv).dropLast := by
      rw [List.dropLast_eq_take, List.drop_take, List.dropLast_eq_take, List.length_drop]
      congr 1
      omega
    have hdne : store.drop minv ≠ [] := by
      intro h0
      have := congrArg List.length h0
      rw [List.length_drop] at this
      simp at this
      omega
    have hglast : (store.drop minv).getLast hdne = store.getLast hne := by
      have h2 : (store.drop minv).getLast? = store.getLast? := by
        conv_rhs => rw [← List.take_append_drop minv store]
        rw [List.getLast?_append_of_ne_nil _ hdne]
      rw [List.getLast?_eq_getLast_of_ne_nil hdne,
        List.getLast?_eq_getLast_of_ne_nil hne] at h2
      exact Option.some_inj.mp h2
    have hrev : (store.drop minv).reverse
        = store.getLast hne :: (store.dropLast.drop minv).reverse := by
      rw [reverse_eq_getLast_cons (store.drop minv) hdne, hglast, hdd]
    rw [h1, hrev]
    simp

/-- C7: when the capacity trimmer observes store size above the configured
maximum, the pass removes handles at the deque's oldest end (the end opposite
LIFO insertion) exactly while the size exceeds the minimum: it keeps the
`min` most recently inserted handles, destroys each removed oldest handle
exactly once (oldest first) via the deallocator, terminates with size equal
to the minimum, never goes below the minimum (at or below it a pass is a
no-op), and a constructor call without `minsize` defaults the minimum to
`maxsize`. -/
theorem gc_trims_oldest_to_min (p : Pool R) (m M : Nat) (hmin : p.minsize = some m)
    (hmax : p.maxsize = some M) (hmM : m ≤ M) (htrig : M < p.store.length)
    (halive : ∀ w ∈ p.store, w.alive = true) :
    (ResourcePool.gcPass p).store = p.store.take m ∧
    (ResourcePool.gcPass p).store.length = m ∧
    (ResourcePool.gcPass p).deallocLog
      = p.deallocLog ++ (p.store.drop m).reverse.map Finalizer.resource ∧
    (∀ q : Pool R, q.minsize = some m → q.store.length ≤ m → ResourcePool.gcPass q = q) ∧
    (∀ (alloc : Option (Nat → R)) (check : Option (R → Bool)) (init : Option (List R))
        (maxage : Option Int),
      (ResourcePool.mkPool alloc check init none (some M) maxage).1.minsize = some M) := by
  have hk : p.store.length = m + (p.store.length - m) := by omega
  have htrim := gcTrim_spec m (p.store.length - m) p.store hk halive p.deallocLog
  have hpass : ResourcePool.gcPass p
      = { p with store := p.store.take m,
                 deallocLog := p.deallocLog
                   ++ (p.store.drop m).reverse.map Finalizer.resource } := by
    simp [ResourcePool.gcPass, hmin, htrim]
  refine ⟨by rw [hpass], ?_, by rw [hpass], ?_, ?_⟩
  · rw [hpass]
    simp [List.length_take]
    omega
  · intro q hq hle
    obtain ⟨qs, qa, qc, qch, qd, qp, qmin, qmax, qage, qid⟩ := q
    dsimp only at hq hle
    subst hq
    simp [ResourcePool.gcPass, gcTrim_of_le m qs qd hle]
  · intro alloc check init maxage
    rfl

/-- A triggered trimmer configuration: three live idle handles, the newest at
the pop end, with `minsize = maxsize = 1`. -/
def gcWitnessPool : Pool Nat :=
  { store := [⟨2, 30, true⟩, ⟨1, 20, true⟩, ⟨0, 10, true⟩]
    alloc := none
    allocCount := 0
    check := fun _ => true
    deallocLog := []
    pendingDrops := []
    minsize := some 1
    maxsize := some 1
    maxage := none
    nextId := 3 }

/-- C7 witness: a pass over three idle handles with min = max = 1 keeps only
the newest handle and destroys the two oldest, oldest first. -/
theorem gc_trims_oldest_to_min_witness :
    (ResourcePool.gcPass gcWitnessPool).store = gcWitnessPool.store.take 1 ∧
    (ResourcePool.gcPass gcWitnessPool).deallocLog
      = gcWitnessPool.deallocLog
          ++ (gcWitnessPool.store.drop 1).reverse.map Finalizer.resource := by
  have h := gc_trims_oldest_to_min gcWitnessPool 1 1 rfl rfl (le_refl 1) (by decide)
    (by decide)
  exact ⟨h.1, h.2.2.1⟩

/-! ### Lemmas about `deque.remove` and the age evictor `__drop` -/

theorem dequeRemove_go_eq [DecidableEq R] (w : Finalizer R) (l : List (Finalizer R)) :
    ResourcePool.dequeRemove.go w l = if w ∈ l then some (l.erase w) else none := by
  induction l with
  | nil => simp [ResourcePool.dequeRemove.go]
  | cons x xs ih =>
    by_cases hx : x = w
    · subst hx
      simp [ResourcePool.dequeRemove.go, List.erase_cons_head]
    · by_cases hmem : w ∈ xs
      · simp [ResourcePool.dequeRemove.go, hx, ih, hmem, List.erase_cons_tail,
          Ne.symm hx]
      · simp [ResourcePool.dequeRemove.go, hx, ih, hmem, Ne.symm hx]

theorem count_one_decomp [DecidableEq R] (w : Finalizer R) :
    ∀ l : List (Finalizer R), l.count w = 1 →
      ∃ l₁ l₂, l = l₁ ++ w :: l₂ ∧ w ∉ l₁ ∧ w ∉ l₂ := by
  intro l
  induction l with
  | nil => intro h; simp at h
  | cons x xs ih =>
    intro h
    by_cases hx : x = w
    · subst hx
      rw [List.count_cons_self] at h
      have hz : xs.count x = 0 := by omega
      exact ⟨[], xs, by simp, by simp, List.count_eq_zero.mp hz⟩
    · rw [List.count_cons_of_ne (fun he => hx he.symm)] at h
      obtain ⟨l₁, l₂, hdec, h1, h2⟩ := ih h
      refine ⟨x :: l₁, l₂, by simp [hdec], ?_, h2⟩
      intro hc
      rcases List.mem_cons.mp hc with he | hm
      · exact hx he.symm
      · exact h1 hm

theorem dequeRemove_not_mem [DecidableEq R] (w : Finalizer R)
    (store : List (Finalizer R)) (h : w ∉ store) :
    ResourcePool.dequeRemove w store = none := by
  have hrev : w ∉ store.reverse := by simpa using h
  simp [ResourcePool.dequeRemove, dequeRemove_go_eq, hrev]

theorem dequeRemove_count_one [DecidableEq R] (w : Finalizer R)
    (store : List (Finalizer R)) (h : store.count w = 1) :
    ResourcePool.dequeRemove w store = some (store.erase w) := by
  obtain ⟨l₁, l₂, hdec, h1, h2⟩ := count_one_decomp w store h
  subst hdec
  have hmem : w ∈ (l₁ ++ w :: l₂).reverse := by simp
  have herase_rev : (l₂.reverse ++ w :: l₁.reverse).erase w = l₂.reverse ++ l₁.reverse := by
    rw [List.erase_append_right _ (by simpa using h2), List.erase_cons_head]
  have herase : (l₁ ++ w :: l₂).erase w = l₁ ++ l₂ := by
    rw [List.erase_append_right _ h1, List.erase_cons_head]
  simp [ResourcePool.dequeRemove, dequeRemove_go_eq, hmem, herase_rev, herase]

/-- C8: when the age evictor fires for handle `w` on a pool with a configured
minimum: at or below the minimum it does nothing; if the handle is no longer
pooled the `ValueError` of `deque.remove` is suppressed and the firing is a
silent no-op; otherwise the handle is removed from the store and its resource
destroyed (passed to the deallocator) exactly once. -/
theorem drop_age_evictor [DecidableEq R] (p : Pool R) (w : Finalizer R) :
    (∀ m : Nat, p.minsize = some m → p.store.length ≤ m → ResourcePool.drop p w = p) ∧
    (w ∉ p.store → ResourcePool.drop p w = p) ∧
    (∀ m : Nat, p.minsize = some m → m < p.store.length → p.store.count w = 1 →
      w.alive = true →
      ResourcePool.drop p w
        = { p with store := p.store.erase w,
                   deallocLog := p.deallocLog ++ [w.resource] }) := by
  refine ⟨?_, ?_, ?_⟩
  · intro m hm hle
    simp [ResourcePool.drop, hm, Nat.not_lt.mpr hle]
  · intro hnm
    have hrem := dequeRemove_not_mem w p.store hnm
    unfold ResourcePool.drop
    cases p.minsize with
    | none => simp [hrem]
    | some m =>
      by_cases hlt : m < p.store.length
      · simp [hlt, hrem]
      · simp [hlt]
  · intro m hm hlt hcount halive
    have hrem := dequeRemove_count_one w p.store hcount
    have hcall : w.callFin = (some w.resource, { w with alive := false }) := by
      simp [Finalizer.callFin, halive]
    simp [ResourcePool.drop, hm, hlt, hrem, hcall]

/-- A pool for exercising the age evictor: two live handles, minimum 1. -/
def dropWitnessPool : Pool Nat :=
  { store := [⟨1, 20, true⟩, ⟨0, 10, true⟩]
    alloc := none
    allocCount := 0
    check := fun _ => true
    deallocLog := []
    pendingDrops := []
    minsize := some 1
    maxsize := some 2
    maxage := some 5
    nextId := 2 }

/-- C8 witness: evicting handle `⟨0, 10⟩` from `dropWitnessPool` (size 2 >
min 1, handle present once, alive) removes it and deallocates resource 10;
and evicting a handle that is not pooled is a no-op. -/
theorem drop_age_evictor_witness :
    ResourcePool.drop dropWitnessPool ⟨0, 10, true⟩
      = { dropWitnessPool with
          store := dropWitnessPool.store.erase ⟨0, 10, true⟩,
          deallocLog := dropWitnessPool.deallocLog ++ [10] } ∧
    ResourcePool.drop dropWitnessPool ⟨7, 70, true⟩ = dropWitnessPool := by
  constructor
  · exact (drop_age_evictor dropWitnessPool ⟨0, 10, true⟩).2.2 1 rfl (by decide)
      (by decide) (by decide)
  · exact (drop_age_evictor dropWitnessPool ⟨7, 70, true⟩).2.1 (by decide)

/-! ### Lemmas about the constructor's init-filling loop -/

theorem fillInit_spec (a : Nat → R) (m : Nat) (k : Nat) :
    ∀ (init : List R) (cnt : Nat), m - init.length = k →
      ResourcePool.fillInit a m init cnt
        = (init ++ (List.range' cnt k).map a, cnt + k) := by
  induction k with
  | zero =>
    intro init cnt hk
    rw [ResourcePool.fillInit]
    simp [Nat.not_lt.mpr (by omega : m ≤ init.length)]
  | succ k ih =>
    intro init cnt hk
    have hlt : init.length < m := by omega
    rw [ResourcePool.fillInit, if_pos hlt,
      ih (init ++ [a cnt]) (cnt + 1) (by simp; omega)]
    rw [List.range'_succ]
    simp
    omega

/-- C10 counterexample: with an allocator, `minsize = 2` and the caller
passing the EMPTY list (a collection with fewer than minsize elements),
`if not init: init = []` rebinds the local name to a fresh list, so the
caller's own object is never mutated: after construction it still has
length 0, not `minsize`, even though the pool store itself was filled to
2 allocator-created resources. -/
theorem init_inplace_counterexample :
    (ResourcePool.mkPool (R := ℕ) (some (fun k => k)) none (some []) (some 2)
        none none).2 = [] ∧
    (ResourcePool.mkPool (R := ℕ) (some (fun k => k)) none (some []) (some 2)
        none none).1.store.length = 2 := by
  constructor
  · rfl
  · have hfill := fillInit_spec (fun k => k) 2 2 [] 0 rfl
    simp [ResourcePool.mkPool, hfill, ResourcePool.wrapAll]

/-- C10 amended: when an allocator and positive `minsize` are configured and
the caller passes a NONEMPTY init list shorter than `minsize`, the
constructor calls the allocator repeatedly, appending each result to the
caller's own init object in place: the caller's list afterwards is its old
content followed by the allocator results, has length exactly `minsize`,
and the number of allocator calls recorded is `minsize - init.length`
(an empty or omitted init is instead rebound to a fresh internal list,
leaving the caller's object untouched). -/
theorem init_fill_mutates_nonempty (a : Nat → R) (m : Nat) (l : List R)
    (hne : l ≠ []) (hlt : l.length < m) (check : Option (R → Bool))
    (maxsize : Option Nat) (maxage : Option Int) :
    (ResourcePool.mkPool (some a) check (some l) (some m) maxsize maxage).2
        = l ++ (List.range' 0 (m - l.length)).map a ∧
    (ResourcePool.mkPool (some a) check (some l) (some m) maxsize maxage).2.length = m ∧
    (ResourcePool.mkPool (some a) check (some l) (some m) maxsize maxage).1.allocCount
        = m - l.length := by
  have hm0 : m ≠ 0 := by omega
  have hfill := fillInit_spec a m (m - l.length) l 0 rfl
  have hempty : l.isEmpty = false := by
    cases l with
    | nil => exact absurd rfl hne
    | cons x xs => rfl
  refine ⟨?_, ?_, ?_⟩ <;>
    simp [ResourcePool.mkPool, hm0, hfill, hempty, List.length_range']
  omega

/-- C10 amended witness: `init = [10]`, `minsize = 3`, allocator `k ↦ k`:
the caller's list is mutated to `[10, 0, 1]` of length 3. -/
theorem init_fill_mutates_nonempty_witness :
    (ResourcePool.mkPool (R := ℕ) (some (fun k => k)) none (some [10]) (some 3)
        none none).2 = [10, 0, 1] := by
  have h := (init_fill_mutates_nonempty (fun k : ℕ => k) 3 [10] (by decide) (by decide)
    none none none).1
  simpa using h

/-- C1: every handle created by the pool supports its claim operation at most
once.  Whatever serialized sequence of attempts hits one handle — detaches by
a borrower in `pop` or the blocking waiter, destroys by the capacity trimmer
(`__gc`) or the age evictor (`__drop`) — at most one attempt succeeds, every
success yields exactly the wrapped resource, and once the handle is dead every
further attempt observes failure and leaves the handle unchanged.  Hence no
resource is handed to two callers and none reaches the destroyer twice. -/
theorem handle_detach_at_most_once (ops : List FinOp) (w : Finalizer R) :
    (runOps ops w).1.countP Option.isSome ≤ 1 ∧
    (∀ r : R, some r ∈ (runOps ops w).1 → r = w.resource) ∧
    (w.alive = false → runOps ops w = (List.replicate ops.length none, w)) := by
  refine ⟨?_, ?_, fun h => runOps_dead ops w h⟩
  · cases ops with
    | nil => simp [runOps]
    | cons op ops =>
      cases halive : w.alive with
      | false =>
        rw [runOps_dead (op :: ops) w halive]
        simp [countP_isSome_replicate_none]
      | true =>
        have hdead : ({ w with alive := false } : Finalizer R).alive = false := rfl
        simp [runOps, runOp_alive op w halive,
          runOps_dead ops _ hdead, List.countP_cons, countP_isSome_replicate_none]
  · intro r hmem
    cases ops with
    | nil => simp [runOps] at hmem
    | cons op ops =>
      cases halive : w.alive with
      | false =>
        rw [runOps_dead (op :: ops) w halive] at hmem
        exact absurd (List.eq_of_mem_replicate hmem) (by simp)
      | true =>
        have hdead : ({ w with alive := false } : Finalizer R).alive = false := rfl
        simp only [runOps, runOp_alive op w halive,
          runOps_dead ops _ hdead, List.mem_cons] at hmem
        rcases hmem with h | h
        · exact (Option.some_inj.mp h.symm).symm
        · exact absurd (List.eq_of_mem_replicate h) (by simp)
